import Mathlib

/-!
Shallow embedding of the lab 6 virtual keyboard (command pattern with
undo/redo and memento-based persistence) from `src/lab 6/main.py`.

Python objects are modelled with an explicit arena (`heap : List Cmd`):
a command instance is a heap index, so the sharing of one instance
between the binding table and the history stacks is captured exactly.
The class-level `PrintCharCommand.text` buffer is a single `text` field
of the keyboard state.  Python `list.append`/`list.pop` become append at
the end / removal of the last element, and `dict` becomes an insertion
ordered association list with in-place overwrite, as in CPython.
-/

namespace Lab6

/-- A JSON-representable field value appearing in a command's `__dict__`. -/
inductive Value where
  | str (s : List Char)
  | int (i : Int)
  | bool (b : Bool)
deriving DecidableEq, Repr

/-- The concrete `Command` subclasses and their instance fields. -/
inductive Cmd where
  | printChar (char : List Char)
  | volumeUp (amount current_volume : Int)
  | volumeDown (amount current_volume : Int)
  | mediaPlayer (is_playing : Bool)
deriving DecidableEq, Repr

/-- `PrintCharCommand.execute` appends to the shared buffer; the volume and
media commands mutate only their own fields.  The result is
(returned string, new instance state, new shared text buffer). -/
def Cmd.execute : Cmd → List Char → String × Cmd × List Char
  | .printChar char, text =>
      (String.mk (text ++ char), .printChar char, text ++ char)
  | .volumeUp amount cv, text =>
      ("volume increased +" ++ toString amount ++ "% (now: " ++
        toString (cv + amount) ++ "%)", .volumeUp amount (cv + amount), text)
  | .volumeDown amount cv, text =>
      ("volume decreased -" ++ toString amount ++ "% (now: " ++
        toString (cv - amount) ++ "%)", .volumeDown amount (cv - amount), text)
  | .mediaPlayer _, text =>
      ("media player launched", .mediaPlayer true, text)

/-- The `undo` method of each `Command` subclass. -/
def Cmd.undo : Cmd → List Char → String × Cmd × List Char
  | .printChar char, text =>
      (String.mk text.dropLast, .printChar char, text.dropLast)
  | .volumeUp amount cv, text =>
      ("volume decreased +" ++ toString amount ++ "% (now: " ++
        toString (cv - amount) ++ "%)", .volumeUp amount (cv - amount), text)
  | .volumeDown amount cv, text =>
      ("volume increased -" ++ toString amount ++ "% (now: " ++
        toString (cv + amount) ++ "%)", .volumeDown amount (cv + amount), text)
  | .mediaPlayer _, text =>
      ("media player closed", .mediaPlayer false, text)

/-- Every subclass defines `redo` as `return self.execute()`. -/
def Cmd.redo (c : Cmd) (text : List Char) : String × Cmd × List Char :=
  c.execute text

/-- `command.__class__.__name__`. -/
def Cmd.clsName : Cmd → String
  | .printChar _ => "PrintCharCommand"
  | .volumeUp _ _ => "VolumeUpCommand"
  | .volumeDown _ _ => "VolumeDownCommand"
  | .mediaPlayer _ => "MediaPlayerCommand"

/-- `command.__dict__.copy()`. -/
def Cmd.fields : Cmd → List (String × Value)
  | .printChar char => [("char", .str char)]
  | .volumeUp amount cv => [("amount", .int amount), ("current_volume", .int cv)]
  | .volumeDown amount cv => [("amount", .int amount), ("current_volume", .int cv)]
  | .mediaPlayer b => [("is_playing", .bool b)]

/-- Python `dict.get`: value of the first (unique) matching key. -/
def dictGet {α : Type} : List (String × α) → String → Option α
  | [], _ => none
  | (k, v) :: rest, key => if key = k then some v else dictGet rest key

/-- Python `dict` assignment: overwrite in place, else append at the end. -/
def dictSet {α : Type} : List (String × α) → String → α → List (String × α)
  | [], key, v => [(key, v)]
  | (k, w) :: rest, key, v =>
      if key = k then (key, v) :: rest else (k, w) :: dictSet rest key v

/-- The keyboard.  `heap` is the arena of live command objects; bindings and
history entries hold arena indices, so aliasing matches the Python object
graph.  `text` is the class-level `PrintCharCommand.text` buffer. -/
structure VirtualKeyboard where
  heap : List Cmd
  key_bindings : List (String × Option Nat)
  history : List (String × Nat)
  undo_stack : List (String × Nat)
  text : List Char
deriving DecidableEq, Repr

namespace VirtualKeyboard

/-- `bind_key`. -/
def bind_key (kb : VirtualKeyboard) (key : String) (c : Option Nat) :
    VirtualKeyboard :=
  { kb with key_bindings := dictSet kb.key_bindings key c }

/-- A fresh `VirtualKeyboard()` after `init_default_bindings`, with the
process-wide text buffer in its initial empty state. -/
def init : VirtualKeyboard :=
  { heap := [.printChar ['a'], .printChar ['b'], .printChar ['c'],
      .printChar ['d'], .volumeUp 20 50, .volumeDown 20 50, .mediaPlayer false]
    key_bindings := [("a", some 0), ("b", some 1), ("c", some 2), ("d", some 3),
      ("ctrl++", some 4), ("ctrl+-", some 5), ("ctrl+p", some 6),
      ("undo", none), ("redo", none)]
    history := []
    undo_stack := []
    text := [] }

/-- `undo`. -/
def undo (kb : VirtualKeyboard) : VirtualKeyboard × String :=
  match kb.history.getLast? with
  | none => (kb, "Nothing to undo")
  | some entry =>
      let r := (kb.heap.getD entry.2 (.printChar [])).undo kb.text
      ({ kb with
          heap := kb.heap.set entry.2 r.2.1
          text := r.2.2
          history := kb.history.dropLast
          undo_stack := kb.undo_stack ++ [entry] }, "undo: " ++ r.1)

/-- `redo`. -/
def redo (kb : VirtualKeyboard) : VirtualKeyboard × String :=
  match kb.undo_stack.getLast? with
  | none => (kb, "Nothing to redo")
  | some entry =>
      let r := (kb.heap.getD entry.2 (.printChar [])).redo kb.text
      ({ kb with
          heap := kb.heap.set entry.2 r.2.1
          text := r.2.2
          undo_stack := kb.undo_stack.dropLast
          history := kb.history ++ [entry] }, "redo: " ++ r.1)

/-- The auto-binding step of `press_key`: `self.key_bindings.get(key)`, and if
that is `None` (absent or explicitly empty) and the key has length one, bind a
fresh `PrintCharCommand(key)` and look it up again. -/
def resolveKey (kb : VirtualKeyboard) (key : String) :
    VirtualKeyboard × Option Nat :=
  match (dictGet kb.key_bindings key).join with
  | some i => (kb, some i)
  | none =>
      if key.length = 1 then
        ({ kb with
            heap := kb.heap ++ [.printChar key.data]
            key_bindings := dictSet kb.key_bindings key (some kb.heap.length) },
          some kb.heap.length)
      else (kb, none)

/-- The tail of `press_key` after the undo/redo dispatch: execute the resolved
command, record it on the past stack and clear the undone stack, or report an
unknown key. -/
def press_exec (kb : VirtualKeyboard) (key : String) : VirtualKeyboard × String :=
  match kb.resolveKey key with
  | (kb1, some i) =>
      let r := (kb1.heap.getD i (.printChar [])).execute kb1.text
      ({ kb1 with
          heap := kb1.heap.set i r.2.1
          text := r.2.2
          history := kb1.history ++ [(key, i)]
          undo_stack := [] }, r.1)
  | (kb1, none) => (kb1, "Unknown key: " ++ key)

/-- `press_key`. -/
def press_key (kb : VirtualKeyboard) (key : String) : VirtualKeyboard × String :=
  if key = "undo" then kb.undo
  else if key = "redo" then kb.redo
  else kb.press_exec key

end VirtualKeyboard

/-- Run a sequence of key presses. -/
def runPresses (kb : VirtualKeyboard) : List String → VirtualKeyboard
  | [] => kb
  | k :: ks => runPresses (kb.press_key k).1 ks

/-- The serialized form of one bound command: its class name tag and its
`__dict__` field map. -/
structure CmdData where
  cls : String
  state : List (String × Value)
deriving DecidableEq, Repr

/-- The memento produced by `KeyboardMemento.from_keyboard`. -/
structure KeyboardMemento where
  text : List Char
  key_bindings : List (String × Option CmdData)
  history : List String
  undo_stack : List String
deriving DecidableEq, Repr

/-- The body of the serialization loop in `from_keyboard`: one bound command
becomes its class name plus its `__dict__`. -/
def serializeCmd (hp : List Cmd) (i : Nat) : CmdData :=
  let c := hp.getD i (.printChar [])
  { cls := c.clsName, state := c.fields }

/-- The serialization loop of `from_keyboard` over the binding table. -/
def serializeBinds (hp : List Cmd) (tb : List (String × Option Nat)) :
    List (String × Option CmdData) :=
  tb.map (fun p => (p.1, p.2.map (serializeCmd hp)))

/-- `KeyboardMemento.from_keyboard`. -/
def KeyboardMemento.from_keyboard (kb : VirtualKeyboard) : KeyboardMemento :=
  { text := kb.text
    key_bindings := serializeBinds kb.heap kb.key_bindings
    history := kb.history.map Prod.fst
    undo_stack := kb.undo_stack.map Prod.fst }

/-- A parsed snapshot file, as `load_state` reads it.  `text` is accessed with
`state['text']` (a missing field raises `KeyError`), the other three with
`state.get(..., default)`, hence the `Option`s. -/
structure Snapshot where
  text : Option (List Char)
  key_bindings : Option (List (String × Option CmdData))
  history : Option (List String)
  undo_stack : Option (List String)
deriving DecidableEq, Repr

/-- The snapshot obtained by saving a memento and parsing it back. -/
def KeyboardMemento.asSnapshot (m : KeyboardMemento) : Snapshot :=
  { text := some m.text
    key_bindings := some m.key_bindings
    history := some m.history
    undo_stack := some m.undo_stack }

/-- How reconstruction of one binding can fail: `keyError` is raised by
`class_names[...]` on an unknown tag and is caught by the handler in
`load_state` (which then returns `False`); `typeError` is raised by the
constructor call on a field map that does not match its parameters and is
not caught, so it propagates out of `load_state`. -/
inductive LoadErr where
  | keyError
  | typeError
deriving DecidableEq, Repr

/-- `class_names[data['class']](**data['state'])`.  A value of the wrong
dynamic type for a field is also folded into `typeError` here, although
Python would only fail later when the mistyped field is used. -/
def constructCmd (cls : String) (st : List (String × Value)) :
    Except LoadErr Cmd :=
  if cls = "PrintCharCommand" then
    if st.all (fun p => p.1 == "char") then
      match dictGet st "char" with
      | some (.str c) => .ok (.printChar c)
      | _ => .error .typeError
    else .error .typeError
  else if cls = "VolumeUpCommand" then
    if st.all (fun p => p.1 == "amount" || p.1 == "current_volume") then
      match dictGet st "amount", dictGet st "current_volume" with
      | some (.int a), some (.int c) => .ok (.volumeUp a c)
      | some (.int a), none => .ok (.volumeUp a 50)
      | none, some (.int c) => .ok (.volumeUp 20 c)
      | none, none => .ok (.volumeUp 20 50)
      | _, _ => .error .typeError
    else .error .typeError
  else if cls = "VolumeDownCommand" then
    if st.all (fun p => p.1 == "amount" || p.1 == "current_volume") then
      match dictGet st "amount", dictGet st "current_volume" with
      | some (.int a), some (.int c) => .ok (.volumeDown a c)
      | some (.int a), none => .ok (.volumeDown a 50)
      | none, some (.int c) => .ok (.volumeDown 20 c)
      | none, none => .ok (.volumeDown 20 50)
      | _, _ => .error .typeError
    else .error .typeError
  else if cls = "MediaPlayerCommand" then
    if st.all (fun p => p.1 == "is_playing") then
      match dictGet st "is_playing" with
      | some (.bool b) => .ok (.mediaPlayer b)
      | none => .ok (.mediaPlayer false)
      | _ => .error .typeError
    else .error .typeError
  else .error .keyError

/-- The binding-reconstruction loop of `load_state`: each rebuilt command is a
fresh object (a fresh arena slot).  On failure the keyboard is returned as
already mutated when the exception was raised. -/
def loadBindings (kb : VirtualKeyboard) :
    List (String × Option CmdData) →
    Except (LoadErr × VirtualKeyboard) VirtualKeyboard
  | [] => .ok kb
  | (k, none) :: rest =>
      loadBindings { kb with key_bindings := dictSet kb.key_bindings k none } rest
  | (k, some d) :: rest =>
      match constructCmd d.cls d.state with
      | .error e => .error (e, kb)
      | .ok c =>
          loadBindings
            { kb with
                heap := kb.heap ++ [c]
                key_bindings := dictSet kb.key_bindings k (some kb.heap.length) }
            rest

/-- The stack-reconstruction comprehension of `load_state`: keep the listed
tokens, in order, that are present in the rebuilt table and not bound to
`None`; each kept entry shares the table's command object. -/
def rebuildStack (bindings : List (String × Option Nat)) (keys : List String) :
    List (String × Nat) :=
  keys.filterMap (fun k =>
    match dictGet bindings k with
    | some (some i) => some (k, i)
    | _ => none)

/-- The outcome of `load_state`: `ok` is `return True`, `err` is the caught
path returning `False`, `crash` is an uncaught exception; each carries the
in-memory state left behind. -/
inductive LoadResult where
  | ok (kb : VirtualKeyboard)
  | err (kb : VirtualKeyboard)
  | crash (kb : VirtualKeyboard)
deriving DecidableEq, Repr

/-- `load_state` on an already parsed snapshot (file reading and JSON parsing
are outside the model; their failures take the same caught path as a missing
`text` field). -/
def VirtualKeyboard.load_state (kb : VirtualKeyboard) (s : Snapshot) :
    LoadResult :=
  match s.text with
  | none => .err kb
  | some t =>
      let kb1 := { kb with text := t, key_bindings := ([] : List (String × Option Nat)) }
      match loadBindings kb1 (s.key_bindings.getD []) with
      | .error (.keyError, kb2) => .err kb2
      | .error (.typeError, kb2) => .crash kb2
      | .ok kb2 =>
          .ok { kb2 with
                  history := rebuildStack kb2.key_bindings (s.history.getD [])
                  undo_stack := rebuildStack kb2.key_bindings (s.undo_stack.getD []) }

/-- The characters an instance contributes to the shared text buffer when
executed: `PrintCharCommand` contributes its `char`, the others nothing. -/
def Cmd.charProj : Cmd → List Char
  | .printChar char => char
  | _ => []

/-- Concatenation, in past-stack order, of the characters of the
`PrintCharCommand` entries on a history stack over a given arena. -/
def appliedOf (hp : List Cmd) (hist : List (String × Nat)) : List Char :=
  (hist.map (fun e => (hp.getD e.2 (.printChar [])).charProj)).flatten

/-- Same, read off a keyboard's own past stack and arena. -/
def appliedChars (kb : VirtualKeyboard) : List Char :=
  appliedOf kb.heap kb.history

/-- Invariant of every keyboard reachable from `init` by key presses: each
stack entry's index is exactly what the binding table holds for its token and
is a live arena slot, table keys are unique, every `PrintCharCommand` in the
arena holds a single character, and the shared buffer is the concatenation of
the applied `PrintCharCommand` characters. -/
structure Inv (kb : VirtualKeyboard) : Prop where
  hist_bind : ∀ e ∈ kb.history, dictGet kb.key_bindings e.1 = some (some e.2)
  undo_bind : ∀ e ∈ kb.undo_stack, dictGet kb.key_bindings e.1 = some (some e.2)
  hist_lt : ∀ e ∈ kb.history, e.2 < kb.heap.length
  undo_lt : ∀ e ∈ kb.undo_stack, e.2 < kb.heap.length
  bind_lt : ∀ p ∈ kb.key_bindings, ∀ i, p.2 = some i → i < kb.heap.length
  keys_nodup : (kb.key_bindings.map Prod.fst).Nodup
  chars_one : ∀ c ∈ kb.heap, ∀ s, c = Cmd.printChar s → s.length = 1
  text_inv : kb.text = appliedChars kb

/-! ### Association-list (Python dict) lemmas -/

theorem dictGet_dictSet_self {α : Type} (d : List (String × α)) (k : String)
    (v : α) : dictGet (dictSet d k v) k = some v := by
  induction d with
  | nil => simp [dictGet, dictSet]
  | cons p rest ih =>
      obtain ⟨k1, w⟩ := p
      by_cases h : k = k1
      · subst h; simp [dictSet, dictGet]
      · simp [dictSet, dictGet, h, ih]

theorem dictGet_dictSet_ne {α : Type} (d : List (String × α)) {k k2 : String}
    (v : α) (h : k2 ≠ k) : dictGet (dictSet d k v) k2 = dictGet d k2 := by
  induction d with
  | nil => simp [dictGet, dictSet, h]
  | cons p rest ih =>
      obtain ⟨k1, w⟩ := p
      by_cases h1 : k = k1
      · subst h1; simp [dictSet, dictGet, h]
      · by_cases h2 : k2 = k1 <;> simp [dictSet, dictGet, h1, h2, ih]

theorem mem_dictSet {α : Type} {d : List (String × α)} {k : String} {v : α}
    {p : String × α} : p ∈ dictSet d k v → p = (k, v) ∨ p ∈ d := by
  induction d with
  | nil => intro h; simpa [dictSet] using h
  | cons q rest ih =>
      obtain ⟨k1, w⟩ := q
      intro h
      by_cases h1 : k = k1
      · subst h1
        simp only [dictSet, if_true, eq_self_iff_true, List.mem_cons] at h
        rcases h with h | h
        · exact Or.inl h
        · exact Or.inr (List.mem_cons_of_mem _ h)
      · simp only [dictSet, if_neg h1, List.mem_cons] at h
        rcases h with h | h
        · exact Or.inr (by simp [h])
        · rcases ih h with h2 | h2
          · exact Or.inl h2
          · exact Or.inr (List.mem_cons_of_mem _ h2)

theorem dictGet_eq_none_iff {α : Type} (d : List (String × α)) (k : String) :
    dictGet d k = none ↔ k ∉ d.map Prod.fst := by
  induction d with
  | nil => simp [dictGet]
  | cons p rest ih =>
      obtain ⟨k1, w⟩ := p
      by_cases h : k = k1 <;> simp [dictGet, h, ih]

theorem dictGet_mem {α : Type} {d : List (String × α)} {k : String} {v : α} :
    dictGet d k = some v → (k, v) ∈ d := by
  induction d with
  | nil => intro h; simp [dictGet] at h
  | cons p rest ih =>
      obtain ⟨k1, w⟩ := p
      intro h
      by_cases h1 : k = k1
      · subst h1
        simp [dictGet] at h
        simp [h]
      · simp only [dictGet, if_neg h1] at h
        exact List.mem_cons_of_mem _ (ih h)

theorem keys_dictSet_of_mem {α : Type} (d : List (String × α)) (k : String)
    (v : α) (h : k ∈ d.map Prod.fst) :
    (dictSet d k v).map Prod.fst = d.map Prod.fst := by
  induction d with
  | nil => simp at h
  | cons p rest ih =>
      obtain ⟨k1, w⟩ := p
      by_cases h1 : k = k1
      · subst h1; simp [dictSet]
      · simp only [List.map_cons, List.mem_cons] at h
        rcases h with h | h
        · exact absurd h h1
        · simp [dictSet, h1, ih h]

theorem keys_dictSet_of_not_mem {α : Type} (d : List (String × α)) (k : String)
    (v : α) (h : k ∉ d.map Prod.fst) :
    (dictSet d k v).map Prod.fst = d.map Prod.fst ++ [k] := by
  induction d with
  | nil => simp [dictSet]
  | cons p rest ih =>
      obtain ⟨k1, w⟩ := p
      simp only [List.map_cons, List.mem_cons] at h
      push_neg at h
      simp [dictSet, h.1, ih h.2]

theorem nodup_dictSet {α : Type} (d : List (String × α)) (k : String) (v : α)
    (h : (d.map Prod.fst).Nodup) : ((dictSet d k v).map Prod.fst).Nodup := by
  by_cases hm : k ∈ d.map Prod.fst
  · rw [keys_dictSet_of_mem d k v hm]; exact h
  · rw [keys_dictSet_of_not_mem d k v hm]
    simp only [List.nodup_append, List.nodup_singleton, true_and]
    refine ⟨h, ?_⟩
    intro a ha he
    rw [List.mem_singleton] at he
    exact hm (he ▸ ha)

/-! ### Arena (`List.getD`) lemmas -/

theorem getD_append_left {α : Type} (l l2 : List α) (i : Nat) (dfl : α)
    (h : i < l.length) : (l ++ l2).getD i dfl = l.getD i dfl := by
  simp [List.getD_eq_getElem?_getD, List.getElem?_append, h]

theorem getD_concat_length {α : Type} (l : List α) (a dfl : α) :
    (l ++ [a]).getD l.length dfl = a := by
  simp [List.getD_eq_getElem?_getD]

theorem getD_set_self {α : Type} (l : List α) (i : Nat) (a dfl : α)
    (h : i < l.length) : (l.set i a).getD i dfl = a := by
  simp [List.getD_eq_getElem?_getD, List.getElem?_set, h]

theorem getD_set_ne {α : Type} (l : List α) {i j : Nat} (a dfl : α)
    (h : i ≠ j) : (l.set i a).getD j dfl = l.getD j dfl := by
  simp [List.getD_eq_getElem?_getD, List.getElem?_set_ne h]

theorem getD_mem {α : Type} (l : List α) (i : Nat) (dfl : α)
    (h : i < l.length) : l.getD i dfl ∈ l := by
  rw [List.getD_eq_getElem?_getD, List.getElem?_eq_getElem h]
  exact List.getElem_mem h

theorem getD_of_longer {α : Type} {l l2 : List α} (i : Nat) (dfl : α)
    (hpre : l.IsPrefix l2) (h : i < l.length) : l2.getD i dfl = l.getD i dfl := by
  obtain ⟨t, rfl⟩ := hpre
  exact getD_append_left l t i dfl h

/-! ### Command lemmas -/

theorem execute_charProj (c : Cmd) (t : List Char) :
    ((c.execute t).2.1).charProj = c.charProj := by
  cases c <;> rfl

theorem undo_charProj (c : Cmd) (t : List Char) :
    ((c.undo t).2.1).charProj = c.charProj := by
  cases c <;> rfl

theorem execute_text (c : Cmd) (t : List Char) :
    (c.execute t).2.2 = t ++ c.charProj := by
  cases c <;> simp [Cmd.execute, Cmd.charProj]

theorem printChar_of_execute {c : Cmd} {t : List Char} {s : List Char}
    (h : (c.execute t).2.1 = .printChar s) : c = .printChar s := by
  cases c <;> simp_all [Cmd.execute]

theorem printChar_of_undo {c : Cmd} {t : List Char} {s : List Char}
    (h : (c.undo t).2.1 = .printChar s) : c = .printChar s := by
  cases c <;> simp_all [Cmd.undo]

/-! ### `appliedOf` lemmas -/

theorem appliedOf_concat (hp : List Cmd) (hist : List (String × Nat))
    (e : String × Nat) :
    appliedOf hp (hist ++ [e]) =
      appliedOf hp hist ++ (hp.getD e.2 (.printChar [])).charProj := by
  simp [appliedOf]

theorem appliedOf_congr {hp hp' : List Cmd} (hist : List (String × Nat))
    (h : ∀ e ∈ hist, (hp'.getD e.2 (Cmd.printChar [])).charProj =
      (hp.getD e.2 (Cmd.printChar [])).charProj) :
    appliedOf hp' hist = appliedOf hp hist := by
  unfold appliedOf
  congr 1
  exact List.map_congr_left (fun e he => h e he)

/-! ### Stack (last element) helpers -/

theorem dropLast_concat_getLast {α : Type} {l : List α} {a : α}
    (h : l.getLast? = some a) : l.dropLast ++ [a] = l := by
  rcases l.eq_nil_or_concat with rfl | ⟨l2, b, rfl⟩
  · simp at h
  · simp_all

theorem mem_of_getLast? {α : Type} {l : List α} {a : α}
    (h : l.getLast? = some a) : a ∈ l := by
  rcases l.eq_nil_or_concat with rfl | ⟨l2, b, rfl⟩
  · simp at h
  · simp_all

/-! ### Unfolding the press paths -/

namespace VirtualKeyboard

theorem press_key_undo (kb : VirtualKeyboard) : kb.press_key "undo" = kb.undo :=
  rfl

theorem press_key_redo (kb : VirtualKeyboard) : kb.press_key "redo" = kb.redo :=
  rfl

theorem press_key_other (kb : VirtualKeyboard) {key : String}
    (h1 : key ≠ "undo") (h2 : key ≠ "redo") :
    kb.press_key key = kb.press_exec key := by
  simp [press_key, h1, h2]

theorem undo_of_empty (kb : VirtualKeyboard) (h : kb.history = []) :
    kb.undo = (kb, "Nothing to undo") := by
  simp [undo, h]

theorem redo_of_empty (kb : VirtualKeyboard) (h : kb.undo_stack = []) :
    kb.redo = (kb, "Nothing to redo") := by
  simp [redo, h]

theorem resolveKey_bound (kb : VirtualKeyboard) {key : String} {i : Nat}
    (h : dictGet kb.key_bindings key = some (some i)) :
    kb.resolveKey key = (kb, some i) := by
  simp [resolveKey, h]

theorem resolveKey_auto (kb : VirtualKeyboard) {key : String}
    (h : (dictGet kb.key_bindings key).join = none) (hl : key.length = 1) :
    kb.resolveKey key =
      ({ kb with
          heap := kb.heap ++ [.printChar key.data]
          key_bindings := dictSet kb.key_bindings key (some kb.heap.length) },
        some kb.heap.length) := by
  unfold resolveKey
  rw [h]
  simp [hl]

theorem resolveKey_fail (kb : VirtualKeyboard) {key : String}
    (h : (dictGet kb.key_bindings key).join = none) (hl : key.length ≠ 1) :
    kb.resolveKey key = (kb, none) := by
  unfold resolveKey
  rw [h]
  simp [hl]

theorem press_exec_some (kb : VirtualKeyboard) {key : String}
    {kb1 : VirtualKeyboard} {i : Nat} (h : kb.resolveKey key = (kb1, some i)) :
    kb.press_exec key =
      ({ kb1 with
          heap := kb1.heap.set i
            ((kb1.heap.getD i (.printChar [])).execute kb1.text).2.1
          text := ((kb1.heap.getD i (.printChar [])).execute kb1.text).2.2
          history := kb1.history ++ [(key, i)]
          undo_stack := [] },
        ((kb1.heap.getD i (.printChar [])).execute kb1.text).1) := by
  simp [press_exec, h]

theorem press_exec_none (kb : VirtualKeyboard) {key : String}
    {kb1 : VirtualKeyboard} (h : kb.resolveKey key = (kb1, none)) :
    kb.press_exec key = (kb1, "Unknown key: " ++ key) := by
  simp [press_exec, h]

theorem undo_some (kb : VirtualKeyboard) {e : String × Nat}
    (h : kb.history.getLast? = some e) :
    kb.undo =
      ({ kb with
          heap := kb.heap.set e.2
            ((kb.heap.getD e.2 (.printChar [])).undo kb.text).2.1
          text := ((kb.heap.getD e.2 (.printChar [])).undo kb.text).2.2
          history := kb.history.dropLast
          undo_stack := kb.undo_stack ++ [e] },
        "undo: " ++ ((kb.heap.getD e.2 (.printChar [])).undo kb.text).1) := by
  simp [undo, h]

theorem redo_some (kb : VirtualKeyboard) {e : String × Nat}
    (h : kb.undo_stack.getLast? = some e) :
    kb.redo =
      ({ kb with
          heap := kb.heap.set e.2
            ((kb.heap.getD e.2 (.printChar [])).redo kb.text).2.1
          text := ((kb.heap.getD e.2 (.printChar [])).redo kb.text).2.2
          undo_stack := kb.undo_stack.dropLast
          history := kb.history ++ [e] },
        "redo: " ++ ((kb.heap.getD e.2 (.printChar [])).redo kb.text).1) := by
  simp [redo, h]

end VirtualKeyboard

/-! ### The reachability invariant is established and preserved -/

theorem inv_init : Inv VirtualKeyboard.init := by
  refine ⟨?_, ?_, ?_, ?_, ?_, ?_, ?_, ?_⟩
  · intro e he; simp [VirtualKeyboard.init] at he
  · intro e he; simp [VirtualKeyboard.init] at he
  · intro e he; simp [VirtualKeyboard.init] at he
  · intro e he; simp [VirtualKeyboard.init] at he
  · intro p hp i hi
    fin_cases hp <;> simp_all [VirtualKeyboard.init] <;> omega
  · decide
  · intro c hc s he
    fin_cases hc <;> simp_all
    all_goals subst he
    all_goals rfl
  · rfl

theorem inv_exec_at {kb : VirtualKeyboard} {key : String} {i : Nat}
    (h : Inv kb) (hb : dictGet kb.key_bindings key = some (some i)) :
    Inv { kb with
        heap := kb.heap.set i
          ((kb.heap.getD i (.printChar [])).execute kb.text).2.1
        text := ((kb.heap.getD i (.printChar [])).execute kb.text).2.2
        history := kb.history ++ [(key, i)]
        undo_stack := [] } := by
  have hilt : i < kb.heap.length := h.bind_lt _ (dictGet_mem hb) i rfl
  refine ⟨?_, ?_, ?_, ?_, ?_, ?_, ?_, ?_⟩
  · intro e he
    rcases List.mem_append.mp he with he | he
    · exact h.hist_bind e he
    · rw [List.mem_singleton.mp he]; exact hb
  · intro e he; simp at he
  · intro e he
    rcases List.mem_append.mp he with he | he
    · simpa [List.length_set] using h.hist_lt e he
    · rw [List.mem_singleton.mp he]; simpa [List.length_set] using hilt
  · intro e he; simp at he
  · intro p hp j hj
    simpa [List.length_set] using h.bind_lt p hp j hj
  · exact h.keys_nodup
  · intro x hx s he
    rcases List.mem_or_eq_of_mem_set hx with hx | rfl
    · exact h.chars_one x hx s he
    · have hcp : kb.heap.getD i (.printChar []) = .printChar s :=
        printChar_of_execute he
      exact h.chars_one _ (getD_mem _ _ _ hilt) s hcp
  · show ((kb.heap.getD i (.printChar [])).execute kb.text).2.2 = _
    have hcongr : ∀ e ∈ kb.history,
        ((kb.heap.set i ((kb.heap.getD i (.printChar [])).execute kb.text).2.1).getD
          e.2 (Cmd.printChar [])).charProj =
        (kb.heap.getD e.2 (Cmd.printChar [])).charProj := by
      intro e he
      by_cases hei : i = e.2
      · subst hei
        rw [getD_set_self _ _ _ _ hilt, execute_charProj]
      · rw [getD_set_ne _ _ _ hei]
    unfold appliedChars
    simp only
    rw [appliedOf_concat, appliedOf_congr _ hcongr,
      getD_set_self _ _ _ _ hilt, execute_charProj, execute_text]
    have htext := h.text_inv
    unfold appliedChars at htext
    rw [htext]

theorem inv_autoBind {kb : VirtualKeyboard} {key : String}
    (h : Inv kb) (hj : (dictGet kb.key_bindings key).join = none)
    (hl : key.length = 1) :
    Inv { kb with
        heap := kb.heap ++ [.printChar key.data]
        key_bindings := dictSet kb.key_bindings key (some kb.heap.length) } := by
  have hkey : ∀ e : String × Nat,
      dictGet kb.key_bindings e.1 = some (some e.2) → e.1 ≠ key := by
    intro e hbe hek
    rw [hek] at hbe
    rw [hbe] at hj
    simp at hj
  refine ⟨?_, ?_, ?_, ?_, ?_, ?_, ?_, ?_⟩
  · intro e he
    rw [dictGet_dictSet_ne _ _ (hkey e (h.hist_bind e he))]
    exact h.hist_bind e he
  · intro e he
    rw [dictGet_dictSet_ne _ _ (hkey e (h.undo_bind e he))]
    exact h.undo_bind e he
  · intro e he
    exact lt_of_lt_of_le (h.hist_lt e he) (by simp)
  · intro e he
    exact lt_of_lt_of_le (h.undo_lt e he) (by simp)
  · intro p hp j hj2
    rcases mem_dictSet hp with rfl | hp2
    · simp only at hj2
      rw [Option.some.injEq] at hj2
      simp [← hj2]
    · exact lt_of_lt_of_le (h.bind_lt p hp2 j hj2) (by simp)
  · exact nodup_dictSet _ _ _ h.keys_nodup
  · intro x hx s he
    rcases List.mem_append.mp hx with hx | hx
    · exact h.chars_one x hx s he
    · rw [List.mem_singleton.mp hx] at he
      rw [Cmd.printChar.injEq] at he
      rw [← he]
      exact hl
  · show kb.text = _
    have hcongr : ∀ e ∈ kb.history,
        ((kb.heap ++ [Cmd.printChar key.data]).getD e.2 (Cmd.printChar [])).charProj =
        (kb.heap.getD e.2 (Cmd.printChar [])).charProj := by
      intro e he
      rw [getD_append_left _ _ _ _ (h.hist_lt e he)]
    unfold appliedChars
    simp only
    rw [appliedOf_congr _ hcongr]
    exact h.text_inv

theorem inv_undo {kb : VirtualKeyboard} (h : Inv kb) : Inv kb.undo.1 := by
  cases hL : kb.history.getLast? with
  | none =>
      rw [kb.undo_of_empty (by simpa using hL)]
      exact h
  | some e =>
      rw [kb.undo_some hL]
      have he : e ∈ kb.history := mem_of_getLast? hL
      have hilt : e.2 < kb.heap.length := h.hist_lt e he
      refine ⟨?_, ?_, ?_, ?_, ?_, ?_, ?_, ?_⟩
      · intro e' he'
        exact h.hist_bind e' ((List.dropLast_sublist kb.history).subset he')
      · intro e' he'
        rcases List.mem_append.mp he' with he' | he'
        · exact h.undo_bind e' he'
        · rw [List.mem_singleton.mp he']; exact h.hist_bind e he
      · intro e' he'
        simpa [List.length_set] using
          h.hist_lt e' ((List.dropLast_sublist kb.history).subset he')
      · intro e' he'
        rcases List.mem_append.mp he' with he' | he'
        · simpa [List.length_set] using h.undo_lt e' he'
        · rw [List.mem_singleton.mp he']; simpa [List.length_set] using hilt
      · intro p hp j hj
        simpa [List.length_set] using h.bind_lt p hp j hj
      · exact h.keys_nodup
      · intro x hx s hxe
        rcases List.mem_or_eq_of_mem_set hx with hx | rfl
        · exact h.chars_one x hx s hxe
        · have hcp : kb.heap.getD e.2 (.printChar []) = .printChar s :=
            printChar_of_undo hxe
          exact h.chars_one _ (getD_mem _ _ _ hilt) s hcp
      · show ((kb.heap.getD e.2 (.printChar [])).undo kb.text).2.2 = _
        have hists : kb.history.dropLast ++ [e] = kb.history :=
          dropLast_concat_getLast hL
        have hcongr : ∀ e' ∈ kb.history.dropLast,
            ((kb.heap.set e.2
              ((kb.heap.getD e.2 (.printChar [])).undo kb.text).2.1).getD
                e'.2 (Cmd.printChar [])).charProj =
            (kb.heap.getD e'.2 (Cmd.printChar [])).charProj := by
          intro e' he'
          by_cases hei : e.2 = e'.2
          · rw [← hei, getD_set_self _ _ _ _ hilt, undo_charProj]
          · rw [getD_set_ne _ _ _ hei]
        have htext : kb.text = appliedOf kb.heap kb.history.dropLast ++
            (kb.heap.getD e.2 (Cmd.printChar [])).charProj := by
          have ht := h.text_inv
          unfold appliedChars at ht
          rw [← hists, appliedOf_concat] at ht
          exact ht
        unfold appliedChars
        simp only
        rw [appliedOf_congr _ hcongr]
        cases hcc : kb.heap.getD e.2 (.printChar []) with
        | printChar s =>
            have hs1 : s.length = 1 :=
              h.chars_one _ (getD_mem _ _ _ hilt) s hcc
            obtain ⟨ch, rfl⟩ : ∃ ch, s = [ch] := by
              cases s with
              | nil => simp at hs1
              | cons a t =>
                  cases t with
                  | nil => exact ⟨a, rfl⟩
                  | cons b u => simp at hs1
            rw [hcc] at htext
            simp only [Cmd.undo]
            rw [htext]
            simp [Cmd.charProj]
        | volumeUp a cv =>
            rw [hcc] at htext
            simp only [Cmd.undo]
            rw [htext]
            simp [Cmd.charProj]
        | volumeDown a cv =>
            rw [hcc] at htext
            simp only [Cmd.undo]
            rw [htext]
            simp [Cmd.charProj]
        | mediaPlayer b =>
            rw [hcc] at htext
            simp only [Cmd.undo]
            rw [htext]
            simp [Cmd.charProj]

theorem inv_redo {kb : VirtualKeyboard} (h : Inv kb) : Inv kb.redo.1 := by
  cases hL : kb.undo_stack.getLast? with
  | none =>
      rw [kb.redo_of_empty (by simpa using hL)]
      exact h
  | some e =>
      rw [kb.redo_some hL]
      have he : e ∈ kb.undo_stack := mem_of_getLast? hL
      have hilt : e.2 < kb.heap.length := h.undo_lt e he
      refine ⟨?_, ?_, ?_, ?_, ?_, ?_, ?_, ?_⟩
      · intro e' he'
        rcases List.mem_append.mp he' with he' | he'
        · exact h.hist_bind e' he'
        · rw [List.mem_singleton.mp he']; exact h.undo_bind e he
      · intro e' he'
        exact h.undo_bind e' ((List.dropLast_sublist kb.undo_stack).subset he')
      · intro e' he'
        rcases List.mem_append.mp he' with he' | he'
        · simpa [List.length_set] using h.hist_lt e' he'
        · rw [List.mem_singleton.mp he']; simpa [List.length_set] using hilt
      · intro e' he'
        simpa [List.length_set] using
          h.undo_lt e' ((List.dropLast_sublist kb.undo_stack).subset he')
      · intro p hp j hj
        simpa [List.length_set] using h.bind_lt p hp j hj
      · exact h.keys_nodup
      · intro x hx s hxe
        rcases List.mem_or_eq_of_mem_set hx with hx | rfl
        · exact h.chars_one x hx s hxe
        · have hcp : kb.heap.getD e.2 (.printChar []) = .printChar s :=
            printChar_of_execute hxe
          exact h.chars_one _ (getD_mem _ _ _ hilt) s hcp
      · show ((kb.heap.getD e.2 (.printChar [])).redo kb.text).2.2 = _
        have hcongr : ∀ e' ∈ kb.history,
            ((kb.heap.set e.2
              ((kb.heap.getD e.2 (.printChar [])).redo kb.text).2.1).getD
                e'.2 (Cmd.printChar [])).charProj =
            (kb.heap.getD e'.2 (Cmd.printChar [])).charProj := by
          intro e' he'
          by_cases hei : e.2 = e'.2
          · rw [← hei, getD_set_self _ _ _ _ hilt, Cmd.redo, execute_charProj]
          · rw [getD_set_ne _ _ _ hei]
        unfold appliedChars
        simp only
        rw [appliedOf_concat, appliedOf_congr _ hcongr,
          getD_set_self _ _ _ _ hilt, Cmd.redo, execute_charProj, execute_text]
        have htext := h.text_inv
        unfold appliedChars at htext
        rw [htext]

theorem inv_press_exec {kb : VirtualKeyboard} (h : Inv kb) (key : String) :
    Inv (kb.press_exec key).1 := by
  cases hj : (dictGet kb.key_bindings key).join with
  | some i =>
      have hb : dictGet kb.key_bindings key = some (some i) :=
        Option.join_eq_some.mp hj
      rw [kb.press_exec_some (kb.resolveKey_bound hb)]
      exact inv_exec_at h hb
  | none =>
      by_cases hl : key.length = 1
      · rw [kb.press_exec_some (kb.resolveKey_auto hj hl)]
        exact inv_exec_at (inv_autoBind h hj hl) (dictGet_dictSet_self _ _ _)
      · rw [kb.press_exec_none (kb.resolveKey_fail hj hl)]
        exact h

theorem inv_press {kb : VirtualKeyboard} (h : Inv kb) (key : String) :
    Inv (kb.press_key key).1 := by
  by_cases h1 : key = "undo"
  · rw [h1, kb.press_key_undo]; exact inv_undo h
  · by_cases h2 : key = "redo"
    · rw [h2, kb.press_key_redo]; exact inv_redo h
    · rw [kb.press_key_other h1 h2]; exact inv_press_exec h key

theorem inv_runPresses {kb : VirtualKeyboard} (h : Inv kb) (keys : List String) :
    Inv (runPresses kb keys) := by
  induction keys generalizing kb with
  | nil => exact h
  | cons k ks ih => exact ih (inv_press h k)

/-! ### Effect of a single press, by resolution case -/

theorem press_bound_effects (kb : VirtualKeyboard) {key : String} {i : Nat}
    (h1 : key ≠ "undo") (h2 : key ≠ "redo")
    (hb : dictGet kb.key_bindings key = some (some i))
    (hilt : i < kb.heap.length) :
    (kb.press_key key).1.key_bindings = kb.key_bindings ∧
    (kb.press_key key).1.heap.length = kb.heap.length ∧
    (kb.press_key key).1.history = kb.history ++ [(key, i)] ∧
    (kb.press_key key).1.undo_stack = [] ∧
    (kb.press_key key).1.heap.getD i (.printChar []) =
      ((kb.heap.getD i (.printChar [])).execute kb.text).2.1 := by
  rw [kb.press_key_other h1 h2, kb.press_exec_some (kb.resolveKey_bound hb)]
  exact ⟨rfl, by simp, rfl, rfl, getD_set_self _ _ _ _ hilt⟩

theorem press_auto_effects (kb : VirtualKeyboard) {key : String}
    (h1 : key ≠ "undo") (h2 : key ≠ "redo")
    (hj : (dictGet kb.key_bindings key).join = none) (hl : key.length = 1) :
    (kb.press_key key).1.key_bindings =
      dictSet kb.key_bindings key (some kb.heap.length) ∧
    (kb.press_key key).1.heap.length = kb.heap.length + 1 ∧
    (kb.press_key key).1.history = kb.history ++ [(key, kb.heap.length)] ∧
    (kb.press_key key).1.undo_stack = [] ∧
    (kb.press_key key).1.heap.getD kb.heap.length (.printChar []) =
      .printChar key.data ∧
    (kb.press_key key).1.text = kb.text ++ key.data ∧
    (kb.press_key key).2 = String.mk (kb.text ++ key.data) := by
  rw [kb.press_key_other h1 h2, kb.press_exec_some (kb.resolveKey_auto hj hl)]
  have hgetD : (kb.heap ++ [Cmd.printChar key.data]).getD kb.heap.length
      (.printChar []) = .printChar key.data := getD_concat_length _ _ _
  have hlen : kb.heap.length < (kb.heap ++ [Cmd.printChar key.data]).length := by
    simp
  refine ⟨rfl, by simp, rfl, rfl, ?_, ?_, ?_⟩
  · show ((kb.heap ++ [Cmd.printChar key.data]).set kb.heap.length _).getD
      kb.heap.length (.printChar []) = _
    rw [getD_set_self _ _ _ _ hlen, hgetD]
    rfl
  · show (((kb.heap ++ [Cmd.printChar key.data]).getD kb.heap.length
      (.printChar [])).execute kb.text).2.2 = _
    rw [hgetD]
    rfl
  · show (((kb.heap ++ [Cmd.printChar key.data]).getD kb.heap.length
      (.printChar [])).execute kb.text).1 = _
    rw [hgetD]
    rfl

/-! ### Claims C2, C6, C8, C3, C7, C10, C9 -/

/-- C2: at every state reachable by any sequence of presses (including the
undo/redo tokens) from a fresh default keyboard, the shared text buffer is
the concatenation, in past-stack order, of the characters of exactly the
`PrintCharCommand` entries currently on the past stack. -/
theorem claim_C2_buffer_eq_applied (keys : List String) :
    (runPresses VirtualKeyboard.init keys).text =
      appliedChars (runPresses VirtualKeyboard.init keys) :=
  (inv_runPresses inv_init keys).text_inv

/-- C6: for every command variant, state and buffer, `redo` has exactly the
effect of `execute`: the same outcome string, resulting fields and text. -/
theorem claim_C6_redo_eq_execute (c : Cmd) (text : List Char) :
    c.redo text = c.execute text := by
  cases c <;> rfl

/-- C8: a press of an unbound multi-character token, an undo with an empty
past stack, and a redo with an empty undone stack each return an ordinary
outcome string and leave the whole keyboard state unchanged. -/
theorem claim_C8_nonfatal (kb : VirtualKeyboard) (key : String) :
    (key ≠ "undo" → key ≠ "redo" → (dictGet kb.key_bindings key).join = none →
      key.length ≠ 1 → kb.press_key key = (kb, "Unknown key: " ++ key)) ∧
    (kb.history = [] → kb.press_key "undo" = (kb, "Nothing to undo")) ∧
    (kb.undo_stack = [] → kb.press_key "redo" = (kb, "Nothing to redo")) := by
  refine ⟨?_, ?_, ?_⟩
  · intro h1 h2 hj hl
    rw [kb.press_key_other h1 h2, kb.press_exec_none (kb.resolveKey_fail hj hl)]
  · intro h
    rw [kb.press_key_undo, kb.undo_of_empty h]
  · intro h
    rw [kb.press_key_redo, kb.redo_of_empty h]

/-- Witness for C8 at the fresh default keyboard and token "xy". -/
theorem claim_C8_nonfatal_witness :
    VirtualKeyboard.init.press_key "xy" =
      (VirtualKeyboard.init, "Unknown key: xy") ∧
    VirtualKeyboard.init.press_key "undo" =
      (VirtualKeyboard.init, "Nothing to undo") ∧
    VirtualKeyboard.init.press_key "redo" =
      (VirtualKeyboard.init, "Nothing to redo") :=
  ⟨(claim_C8_nonfatal VirtualKeyboard.init "xy").1 (by decide) (by decide)
      (by decide) (by decide),
    (claim_C8_nonfatal VirtualKeyboard.init "xy").2.1 rfl,
    (claim_C8_nonfatal VirtualKeyboard.init "xy").2.2 rfl⟩

/-- C3 as stated is false: pressing "a" then "undo" leaves `("a", 0)` on the
undone stack, and the subsequent press of the unresolvable token "xy" — a
press of a token other than "undo"/"redo" — leaves the undone stack
non-empty. -/
theorem claim_C3_counterexample :
    ("xy" : String) ≠ "undo" ∧ ("xy" : String) ≠ "redo" ∧
    ((runPresses VirtualKeyboard.init ["a", "undo"]).press_key "xy").1.undo_stack
      = [("a", 0)] := by
  decide

/-- C3 amended: after a press of a token other than "undo"/"redo" that
resolves to a command (the token is bound to one, or is a single character
and hence auto-bound), the undone stack is empty.  A press that resolves no
command leaves the keyboard, including its undone stack, unchanged. -/
theorem claim_C3_amended (kb : VirtualKeyboard) (key : String)
    (h1 : key ≠ "undo") (h2 : key ≠ "redo")
    (h3 : (dictGet kb.key_bindings key).join.isSome ∨ key.length = 1) :
    (kb.press_key key).1.undo_stack = [] := by
  rw [kb.press_key_other h1 h2]
  cases hj : (dictGet kb.key_bindings key).join with
  | some i =>
      rw [kb.press_exec_some (kb.resolveKey_bound (Option.join_eq_some.mp hj))]
  | none =>
      have hl : key.length = 1 := by
        rcases h3 with h3 | h3
        · rw [hj] at h3; simp at h3
        · exact h3
      rw [kb.press_exec_some (kb.resolveKey_auto hj hl)]

/-- Witness for the amended C3: pressing the bound key "a" on the fresh
keyboard leaves an empty undone stack. -/
theorem claim_C3_amended_witness :
    (VirtualKeyboard.init.press_key "a").1.undo_stack = [] :=
  claim_C3_amended VirtualKeyboard.init "a" (by decide) (by decide)
    (Or.inl (by decide))

/-- C7: pressing a single-character token `x` with no binding binds it to a
fresh `PrintCharCommand` for `x` (the fresh arena slot `kb.heap.length`)
before executing it, and a second press of `x` resolves that same slot: no
new command is allocated and the binding is unchanged. -/
theorem claim_C7_autoBind (kb : VirtualKeyboard) (x : String)
    (h1 : x ≠ "undo") (h2 : x ≠ "redo")
    (habs : dictGet kb.key_bindings x = none) (hl : x.length = 1) :
    dictGet (kb.press_key x).1.key_bindings x = some (some kb.heap.length) ∧
    (kb.press_key x).1.heap.getD kb.heap.length (.printChar []) =
      .printChar x.data ∧
    (kb.press_key x).1.history = kb.history ++ [(x, kb.heap.length)] ∧
    ((kb.press_key x).1.press_key x).1.heap.length =
      (kb.press_key x).1.heap.length ∧
    dictGet ((kb.press_key x).1.press_key x).1.key_bindings x =
      some (some kb.heap.length) ∧
    ((kb.press_key x).1.press_key x).1.history =
      (kb.press_key x).1.history ++ [(x, kb.heap.length)] := by
  have hj : (dictGet kb.key_bindings x).join = none := by rw [habs]; rfl
  obtain ⟨e1, e2, e3, _, e5, _, _⟩ := press_auto_effects kb h1 h2 hj hl
  have hb1 : dictGet (kb.press_key x).1.key_bindings x =
      some (some kb.heap.length) := by
    rw [e1]; exact dictGet_dictSet_self _ _ _
  have hlt1 : kb.heap.length < (kb.press_key x).1.heap.length := by
    rw [e2]; exact Nat.lt_succ_self _
  obtain ⟨f1, f2, f3, _, _⟩ :=
    press_bound_effects (kb.press_key x).1 h1 h2 hb1 hlt1
  refine ⟨hb1, e5, e3, f2, ?_, f3⟩
  rw [f1]
  exact hb1

/-- Witness for C7: the fresh keyboard has no binding for "z"; two presses
of "z" bind and then reuse arena slot 7. -/
theorem claim_C7_autoBind_witness :
    dictGet (VirtualKeyboard.init.press_key "z").1.key_bindings "z" =
      some (some VirtualKeyboard.init.heap.length) ∧
    (VirtualKeyboard.init.press_key "z").1.heap.getD
      VirtualKeyboard.init.heap.length (.printChar []) = .printChar "z".data ∧
    (VirtualKeyboard.init.press_key "z").1.history =
      VirtualKeyboard.init.history ++ [("z", VirtualKeyboard.init.heap.length)] ∧
    ((VirtualKeyboard.init.press_key "z").1.press_key "z").1.heap.length =
      (VirtualKeyboard.init.press_key "z").1.heap.length ∧
    dictGet ((VirtualKeyboard.init.press_key "z").1.press_key "z").1.key_bindings
      "z" = some (some VirtualKeyboard.init.heap.length) ∧
    ((VirtualKeyboard.init.press_key "z").1.press_key "z").1.history =
      (VirtualKeyboard.init.press_key "z").1.history ++
        [("z", VirtualKeyboard.init.heap.length)] :=
  claim_C7_autoBind VirtualKeyboard.init "z" (by decide) (by decide)
    (by decide) (by decide)

/-- C10: pressing a single-character token explicitly bound to `None` (other
than the intercepted "undo"/"redo") is treated exactly like an unbound one:
the `None` binding is overwritten with a fresh `PrintCharCommand` for the
character, which is executed, appending the character to the buffer. -/
theorem claim_C10_explicit_none (kb : VirtualKeyboard) (x : String)
    (h1 : x ≠ "undo") (h2 : x ≠ "redo")
    (hnone : dictGet kb.key_bindings x = some none) (hl : x.length = 1) :
    dictGet (kb.press_key x).1.key_bindings x = some (some kb.heap.length) ∧
    (kb.press_key x).1.heap.getD kb.heap.length (.printChar []) =
      .printChar x.data ∧
    (kb.press_key x).1.text = kb.text ++ x.data ∧
    (kb.press_key x).1.history = kb.history ++ [(x, kb.heap.length)] ∧
    (kb.press_key x).2 = String.mk (kb.text ++ x.data) := by
  have hj : (dictGet kb.key_bindings x).join = none := by rw [hnone]; rfl
  obtain ⟨e1, _, e3, _, e5, e6, e7⟩ := press_auto_effects kb h1 h2 hj hl
  refine ⟨?_, e5, e6, e3, e7⟩
  rw [e1]
  exact dictGet_dictSet_self _ _ _

/-- Witness for C10: bind "z" explicitly to `None`, then press "z". -/
theorem claim_C10_explicit_none_witness :
    dictGet ((VirtualKeyboard.init.bind_key "z" none).press_key "z").1.key_bindings
      "z" = some (some (VirtualKeyboard.init.bind_key "z" none).heap.length) ∧
    ((VirtualKeyboard.init.bind_key "z" none).press_key "z").1.heap.getD
      (VirtualKeyboard.init.bind_key "z" none).heap.length (.printChar []) =
      .printChar "z".data ∧
    ((VirtualKeyboard.init.bind_key "z" none).press_key "z").1.text =
      (VirtualKeyboard.init.bind_key "z" none).text ++ "z".data ∧
    ((VirtualKeyboard.init.bind_key "z" none).press_key "z").1.history =
      (VirtualKeyboard.init.bind_key "z" none).history ++
        [("z", (VirtualKeyboard.init.bind_key "z" none).heap.length)] ∧
    ((VirtualKeyboard.init.bind_key "z" none).press_key "z").2 =
      String.mk ((VirtualKeyboard.init.bind_key "z" none).text ++ "z".data) :=
  claim_C10_explicit_none (VirtualKeyboard.init.bind_key "z" none) "z"
    (by decide) (by decide) (by decide) (by decide)

/-- C9: a syntactically valid snapshot with an unknown class tag among its
bindings makes `load_state` report failure (`return False`) while the text
buffer has already been overwritten with the snapshot's text and the
previous key bindings have been cleared. -/
theorem claim_C9_nonatomic_load :
    VirtualKeyboard.init.load_state
      { text := some ['Z', 'Z']
        key_bindings := some [("x", some { cls := "NopeCommand", state := [] })]
        history := some []
        undo_stack := some [] } =
      .err { heap := VirtualKeyboard.init.heap
             key_bindings := []
             history := []
             undo_stack := []
             text := ['Z', 'Z'] } ∧
    (['Z', 'Z'] : List Char) ≠ VirtualKeyboard.init.text ∧
    VirtualKeyboard.init.key_bindings ≠ [] := by
  decide

/-! ### Behaviour of the reconstruction loops -/

theorem loadBindings_ok (kb : VirtualKeyboard)
    (bs : List (String × Option CmdData))
    (hok : ∀ p ∈ bs, ∀ d, (p : String × Option CmdData).2 = some d →
      ∃ c, constructCmd d.cls d.state = .ok c) :
    ∃ kb2, loadBindings kb bs = .ok kb2 ∧
      kb2.text = kb.text ∧ kb2.history = kb.history ∧
      kb2.undo_stack = kb.undo_stack ∧ kb.heap.IsPrefix kb2.heap := by
  induction bs generalizing kb with
  | nil => exact ⟨kb, rfl, rfl, rfl, rfl, List.prefix_rfl⟩
  | cons p rest ih =>
      obtain ⟨k, od⟩ := p
      cases od with
      | none =>
          obtain ⟨kb2, h1, h2, h3, h4, h5⟩ :=
            ih { kb with key_bindings := dictSet kb.key_bindings k none }
              (fun q hq => hok q (List.mem_cons_of_mem _ hq))
          exact ⟨kb2, h1, h2, h3, h4, h5⟩
      | some d =>
          obtain ⟨c, hc⟩ := hok (k, some d) (List.mem_cons_self _ _) d rfl
          obtain ⟨kb2, h1, h2, h3, h4, h5⟩ :=
            ih { kb with
                  heap := kb.heap ++ [c]
                  key_bindings := dictSet kb.key_bindings k (some kb.heap.length) }
              (fun q hq => hok q (List.mem_cons_of_mem _ hq))
          refine ⟨kb2, ?_, h2, h3, h4, ?_⟩
          · simp only [loadBindings, hc]
            exact h1
          · exact List.IsPrefix.trans ⟨[c], rfl⟩ h5

theorem loadBindings_err (kb : VirtualKeyboard)
    (pre : List (String × Option CmdData)) (k : String) (d : CmdData)
    (rest : List (String × Option CmdData)) {e : LoadErr}
    (hok : ∀ p ∈ pre, ∀ dd, (p : String × Option CmdData).2 = some dd →
      ∃ c, constructCmd dd.cls dd.state = .ok c)
    (hbad : constructCmd d.cls d.state = .error e) :
    ∃ kb2, loadBindings kb (pre ++ (k, some d) :: rest) = .error (e, kb2) ∧
      kb2.text = kb.text := by
  induction pre generalizing kb with
  | nil =>
      refine ⟨kb, ?_, rfl⟩
      simp only [List.nil_append, loadBindings, hbad]
  | cons p pre2 ih =>
      obtain ⟨k1, od⟩ := p
      cases od with
      | none =>
          obtain ⟨kb2, h1, h2⟩ :=
            ih { kb with key_bindings := dictSet kb.key_bindings k1 none }
              (fun q hq => hok q (List.mem_cons_of_mem _ hq))
          exact ⟨kb2, h1, h2⟩
      | some d1 =>
          obtain ⟨c, hc⟩ := hok (k1, some d1) (List.mem_cons_self _ _) d1 rfl
          obtain ⟨kb2, h1, h2⟩ :=
            ih { kb with
                  heap := kb.heap ++ [c]
                  key_bindings := dictSet kb.key_bindings k1 (some kb.heap.length) }
              (fun q hq => hok q (List.mem_cons_of_mem _ hq))
          refine ⟨kb2, ?_, h2⟩
          simp only [List.cons_append, loadBindings, hc]
          exact h1

theorem rebuildStack_map_fst (b : List (String × Option Nat))
    (keys : List String) :
    (rebuildStack b keys).map Prod.fst =
      keys.filter (fun k => (dictGet b k).join.isSome) := by
  induction keys with
  | nil => rfl
  | cons k ks ih =>
      cases hb : dictGet b k with
      | none =>
          simp only [rebuildStack, List.filterMap_cons, hb, List.filter_cons]
          simp only [rebuildStack] at ih
          simp [hb, ih]
      | some o =>
          cases o with
          | none =>
              simp only [rebuildStack, List.filterMap_cons, hb, List.filter_cons]
              simp only [rebuildStack] at ih
              simp [hb, ih]
          | some i =>
              simp only [rebuildStack, List.filterMap_cons, hb, List.filter_cons]
              simp only [rebuildStack] at ih
              simp [hb, ih]

/-! ### Claims C4 and C5 -/

/-- C4 as stated is false: a snapshot whose first binding entry has an
unknown class tag makes the whole load fail (`load_state` returns `False`):
the later well-formed binding for "y" is not installed and the listed
history is not rebuilt, so the rest of the load does not complete. -/
theorem claim_C4_counterexample :
    VirtualKeyboard.init.load_state
      { text := some ['t']
        key_bindings := some [("x", some { cls := "NopeCommand", state := [] }),
          ("y", some ⟨"PrintCharCommand", [("char", .str ['y'])]⟩)]
        history := some ["y"]
        undo_stack := some [] } =
      .err { heap := VirtualKeyboard.init.heap
             key_bindings := []
             history := []
             undo_stack := []
             text := ['t'] } := by
  decide

/-- C4 amended: with the text field present, a bindings entry whose kind tag
matches no known variant aborts the whole load — after any prefix of loadable
entries, `load_state` returns `False` with the text already overwritten — and
an entry whose field map does not match the variant's constructor parameters
raises an exception that `load_state` does not catch.  (Only a missing text
field fails before any mutation.) -/
theorem claim_C4_amended (kb : VirtualKeyboard) (t : List Char)
    (pre : List (String × Option CmdData)) (k : String) (d : CmdData)
    (rest : List (String × Option CmdData)) (hist und : Option (List String))
    (hok : ∀ p ∈ pre, ∀ dd, (p : String × Option CmdData).2 = some dd →
      ∃ c, constructCmd dd.cls dd.state = .ok c) :
    (constructCmd d.cls d.state = .error .keyError →
      ∃ kb2, kb.load_state
        { text := some t
          key_bindings := some (pre ++ (k, some d) :: rest)
          history := hist
          undo_stack := und } = .err kb2 ∧ kb2.text = t) ∧
    (constructCmd d.cls d.state = .error .typeError →
      ∃ kb2, kb.load_state
        { text := some t
          key_bindings := some (pre ++ (k, some d) :: rest)
          history := hist
          undo_stack := und } = .crash kb2 ∧ kb2.text = t) := by
  constructor
  · intro hbad
    obtain ⟨kb2, h1, h2⟩ := loadBindings_err
      { kb with text := t, key_bindings := ([] : List (String × Option Nat)) }
      pre k d rest hok hbad
    refine ⟨kb2, ?_, h2⟩
    simp only [VirtualKeyboard.load_state, Option.getD_some]
    rw [h1]
  · intro hbad
    obtain ⟨kb2, h1, h2⟩ := loadBindings_err
      { kb with text := t, key_bindings := ([] : List (String × Option Nat)) }
      pre k d rest hok hbad
    refine ⟨kb2, ?_, h2⟩
    simp only [VirtualKeyboard.load_state, Option.getD_some]
    rw [h1]

/-- Witness for the amended C4 at a concrete snapshot: an unknown tag makes
the load return `False`; a `PrintCharCommand` entry with a misnamed field
makes it raise. -/
theorem claim_C4_amended_witness :
    (∃ kb2, VirtualKeyboard.init.load_state
      { text := some ['t']
        key_bindings := some [("x", some { cls := "NopeCommand", state := [] })]
        history := some ["y"]
        undo_stack := some [] } = .err kb2 ∧ kb2.text = ['t']) ∧
    (∃ kb2, VirtualKeyboard.init.load_state
      { text := some ['t']
        key_bindings := some
          [("x", some ⟨"PrintCharCommand", [("wrong_field", .str ['y'])]⟩)]
        history := some ["y"]
        undo_stack := some [] } = .crash kb2 ∧ kb2.text = ['t']) := by
  constructor
  · exact (claim_C4_amended VirtualKeyboard.init ['t'] [] "x"
      { cls := "NopeCommand", state := [] } [] (some ["y"]) (some [])
      (by intro p hp dd hdd; simp at hp)).1 (by rfl)
  · exact (claim_C4_amended VirtualKeyboard.init ['t'] [] "x"
      { cls := "PrintCharCommand", state := [("wrong_field", .str ['y'])] }
      [] (some ["y"]) (some [])
      (by intro p hp dd hdd; simp at hp)).2 (by rfl)

/-- C5: whenever the text field is present and every bindings entry is
reconstructible, `load_state` succeeds, and each rebuilt stack consists, in
the listed order, of exactly the listed tokens that are present in the
rebuilt table and not bound to `None`: tokens absent from `key_bindings` or
bound to the explicit empty marker are silently dropped. -/
theorem claim_C5_orphans_dropped (kb : VirtualKeyboard) (s : Snapshot)
    (t : List Char) (htext : s.text = some t)
    (hok : ∀ p ∈ s.key_bindings.getD [], ∀ d,
      (p : String × Option CmdData).2 = some d →
      ∃ c, constructCmd d.cls d.state = .ok c) :
    ∃ kb2, kb.load_state s = .ok kb2 ∧
      kb2.history.map Prod.fst = (s.history.getD []).filter
        (fun k => (dictGet kb2.key_bindings k).join.isSome) ∧
      kb2.undo_stack.map Prod.fst = (s.undo_stack.getD []).filter
        (fun k => (dictGet kb2.key_bindings k).join.isSome) := by
  obtain ⟨kb2, h1, _, _, _, _⟩ := loadBindings_ok
    { kb with text := t, key_bindings := ([] : List (String × Option Nat)) }
    (s.key_bindings.getD []) hok
  refine ⟨{ kb2 with
      history := rebuildStack kb2.key_bindings (s.history.getD [])
      undo_stack := rebuildStack kb2.key_bindings (s.undo_stack.getD []) },
    ?_, ?_, ?_⟩
  · simp only [VirtualKeyboard.load_state, htext]
    rw [h1]
  · exact rebuildStack_map_fst _ _
  · exact rebuildStack_map_fst _ _

/-- Witness for C5: a snapshot whose history lists the orphan token "ghost"
and the `None`-bound token "u"; the load succeeds and the rebuilt past stack
keeps only the two occurrences of "a", in order. -/
theorem claim_C5_orphans_dropped_witness :
    ∃ kb2, VirtualKeyboard.init.load_state
      { text := some ['h']
        key_bindings := some
          [("a", some ⟨"PrintCharCommand", [("char", .str ['a'])]⟩), ("u", none)]
        history := some ["a", "ghost", "u", "a"]
        undo_stack := some ["ghost"] } = .ok kb2 ∧
      kb2.history.map Prod.fst = (["a", "ghost", "u", "a"] : List String).filter
        (fun k => (dictGet kb2.key_bindings k).join.isSome) ∧
      kb2.undo_stack.map Prod.fst = (["ghost"] : List String).filter
        (fun k => (dictGet kb2.key_bindings k).join.isSome) :=
  claim_C5_orphans_dropped VirtualKeyboard.init
    { text := some ['h']
      key_bindings := some
        [("a", some ⟨"PrintCharCommand", [("char", .str ['a'])]⟩), ("u", none)]
      history := some ["a", "ghost", "u", "a"]
      undo_stack := some ["ghost"] }
    ['h'] rfl
    (by
      intro p hp d hd
      fin_cases hp
      · exact ⟨.printChar ['a'], by simp at hd; rw [← hd]; rfl⟩
      · simp at hd)

/-! ### Round trip of the snapshot codec (C1) -/

theorem constructCmd_roundtrip (c : Cmd) :
    constructCmd c.clsName c.fields = .ok c := by
  cases c <;> rfl

theorem loadBindings_serialized (hp : List Cmd)
    (tb : List (String × Option Nat)) (kb : VirtualKeyboard)
    (hnodup : (tb.map Prod.fst).Nodup)
    (hlt : ∀ p ∈ tb, ∀ i, (p : String × Option Nat).2 = some i →
      i < hp.length)
    (hfresh : ∀ p ∈ tb,
      dictGet kb.key_bindings (p : String × Option Nat).1 = none) :
    ∃ kb2, loadBindings kb (serializeBinds hp tb) = .ok kb2 ∧
      kb2.text = kb.text ∧ kb2.history = kb.history ∧
      kb2.undo_stack = kb.undo_stack ∧ kb.heap.IsPrefix kb2.heap ∧
      (∀ k, dictGet tb k = none →
        dictGet kb2.key_bindings k = dictGet kb.key_bindings k) ∧
      (∀ k, dictGet tb k = some none →
        dictGet kb2.key_bindings k = some none) ∧
      (∀ k i, dictGet tb k = some (some i) → ∃ j,
        dictGet kb2.key_bindings k = some (some j) ∧ j < kb2.heap.length ∧
        kb2.heap.getD j (.printChar []) = hp.getD i (.printChar [])) := by
  induction tb generalizing kb with
  | nil =>
      refine ⟨kb, rfl, rfl, rfl, rfl, List.prefix_rfl, fun k _ => rfl, ?_, ?_⟩
      · intro k hk; simp [dictGet] at hk
      · intro k i hk; simp [dictGet] at hk
  | cons p rest ih =>
      obtain ⟨k1, od⟩ := p
      have hk1rest : k1 ∉ rest.map Prod.fst := by
        have := hnodup
        simp only [List.map_cons, List.nodup_cons] at this
        exact this.1
      have hrest_ne : ∀ q ∈ rest, (q : String × Option Nat).1 ≠ k1 := by
        intro q hq he
        exact hk1rest (he ▸ List.mem_map_of_mem Prod.fst hq)
      have hnodup2 : (rest.map Prod.fst).Nodup := by
        have h0 := hnodup
        simp only [List.map_cons, List.nodup_cons] at h0
        exact h0.2
      cases od with
      | none =>
          obtain ⟨kb2, h1, h2, h3, h4, hpre, P1, P2, P3⟩ :=
            ih { kb with key_bindings := dictSet kb.key_bindings k1 none }
              hnodup2
              (fun q hq i hi => hlt q (List.mem_cons_of_mem _ hq) i hi)
              (fun q hq => by
                rw [dictGet_dictSet_ne _ _ (hrest_ne q hq)]
                exact hfresh q (List.mem_cons_of_mem _ hq))
          refine ⟨kb2, ?_, h2, h3, h4, hpre, ?_, ?_, ?_⟩
          · simp only [serializeBinds, List.map_cons, Option.map_none',
              loadBindings]
            exact h1
          · intro k hk
            by_cases he : k = k1
            · rw [he] at hk; simp [dictGet] at hk
            · have hkrest : dictGet rest k = none := by
                simpa [dictGet, he] using hk
              rw [P1 k hkrest, dictGet_dictSet_ne _ _ he]
          · intro k hk
            by_cases he : k = k1
            · subst he
              have hkrest : dictGet rest k = none :=
                (dictGet_eq_none_iff rest k).mpr hk1rest
              rw [P1 k hkrest, dictGet_dictSet_self]
            · have hkrest : dictGet rest k = some none := by
                simpa [dictGet, he] using hk
              exact P2 k hkrest
          · intro k i hk
            by_cases he : k = k1
            · rw [he] at hk; simp [dictGet] at hk
            · have hkrest : dictGet rest k = some (some i) := by
                simpa [dictGet, he] using hk
              exact P3 k i hkrest
      | some i0 =>
          have hi0 : i0 < hp.length :=
            hlt (k1, some i0) (List.mem_cons_self _ _) i0 rfl
          obtain ⟨kb2, h1, h2, h3, h4, hpre, P1, P2, P3⟩ :=
            ih { kb with
                  heap := kb.heap ++ [hp.getD i0 (.printChar [])]
                  key_bindings :=
                    dictSet kb.key_bindings k1 (some kb.heap.length) }
              hnodup2
              (fun q hq i hi => hlt q (List.mem_cons_of_mem _ hq) i hi)
              (fun q hq => by
                rw [dictGet_dictSet_ne _ _ (hrest_ne q hq)]
                exact hfresh q (List.mem_cons_of_mem _ hq))
          have hlen1 : kb.heap.length <
              (kb.heap ++ [hp.getD i0 (.printChar [])]).length := by
            simp
          refine ⟨kb2, ?_, h2, h3, h4,
            List.IsPrefix.trans ⟨[hp.getD i0 (.printChar [])], rfl⟩ hpre,
            ?_, ?_, ?_⟩
          · simp only [serializeBinds, List.map_cons, Option.map_some',
              loadBindings, serializeCmd, constructCmd_roundtrip]
            exact h1
          · intro k hk
            by_cases he : k = k1
            · rw [he] at hk; simp [dictGet] at hk
            · have hkrest : dictGet rest k = none := by
                simpa [dictGet, he] using hk
              rw [P1 k hkrest, dictGet_dictSet_ne _ _ he]
          · intro k hk
            by_cases he : k = k1
            · rw [he] at hk; simp [dictGet] at hk
            · have hkrest : dictGet rest k = some none := by
                simpa [dictGet, he] using hk
              exact P2 k hkrest
          · intro k i hk
            by_cases he : k = k1
            · subst he
              have hik : i0 = i := by simpa [dictGet] using hk
              subst hik
              have hkrest : dictGet rest k = none :=
                (dictGet_eq_none_iff rest k).mpr hk1rest
              refine ⟨kb.heap.length, ?_, ?_, ?_⟩
              · rw [P1 k hkrest, dictGet_dictSet_self]
              · exact Nat.lt_of_lt_of_le hlen1 hpre.length_le
              · rw [getD_of_longer _ _ hpre hlen1, getD_concat_length]
            · have hkrest : dictGet rest k = some (some i) := by
                simpa [dictGet, he] using hk
              exact P3 k i hkrest

theorem rebuildStack_forall₂ (b2 : List (String × Option Nat))
    (hp2 hp : List Cmd) (hist : List (String × Nat))
    (h : ∀ e ∈ hist, ∃ j,
      dictGet b2 (e : String × Nat).1 = some (some j) ∧
      hp2.getD j (.printChar []) = hp.getD (e : String × Nat).2 (.printChar [])) :
    List.Forall₂ (fun e e2 => e.1 = e2.1 ∧
      hp2.getD e2.2 (.printChar []) = hp.getD e.2 (.printChar []))
      hist (rebuildStack b2 (hist.map Prod.fst)) := by
  induction hist with
  | nil => exact List.Forall₂.nil
  | cons e es ih =>
      obtain ⟨j, hj, hv⟩ := h e (List.mem_cons_self _ _)
      have hstep : rebuildStack b2 ((e :: es).map Prod.fst) =
          (e.1, j) :: rebuildStack b2 (es.map Prod.fst) := by
        simp [rebuildStack, List.filterMap_cons, hj]
      rw [hstep]
      exact List.Forall₂.cons ⟨rfl, hv⟩
        (ih (fun q hq => h q (List.mem_cons_of_mem _ hq)))

theorem forall₂_getLast? {α β : Type} {R : α → β → Prop} {l : List α}
    {l2 : List β} (h : List.Forall₂ R l l2) :
    (l.getLast? = none ∧ l2.getLast? = none) ∨
    (∃ a b, l.getLast? = some a ∧ l2.getLast? = some b ∧ R a b) := by
  induction h with
  | nil => exact Or.inl ⟨rfl, rfl⟩
  | @cons a b lA lB hab htail ih =>
      rcases ih with ⟨h1, h2⟩ | ⟨x, y, hx, hy, hxy⟩
      · have e1 : lA = [] := by simpa using h1
        have e2 : lB = [] := by simpa using h2
        subst e1
        subst e2
        exact Or.inr ⟨a, b, rfl, rfl, hab⟩
      · right
        refine ⟨x, y, ?_, ?_, hxy⟩
        · have : a :: lA = (a :: lA.dropLast) ++ [x] := by
            rw [List.cons_append, dropLast_concat_getLast hx]
          rw [this, List.getLast?_concat]
        · have : b :: lB = (b :: lB.dropLast) ++ [y] := by
            rw [List.cons_append, dropLast_concat_getLast hy]
          rw [this, List.getLast?_concat]

theorem undo_outcome_eq (kbA kbB : VirtualKeyboard)
    (htext : kbB.text = kbA.text)
    (hrel : List.Forall₂ (fun (e e2 : String × Nat) => e.1 = e2.1 ∧
      kbB.heap.getD e2.2 (.printChar []) = kbA.heap.getD e.2 (.printChar []))
      kbA.history kbB.history) :
    kbB.undo.2 = kbA.undo.2 := by
  rcases forall₂_getLast? hrel with ⟨h1, h2⟩ | ⟨a, b, ha, hb, hab⟩
  · rw [kbA.undo_of_empty (by simpa using h1),
      kbB.undo_of_empty (by simpa using h2)]
  · rw [kbA.undo_some ha, kbB.undo_some hb]
    simp only
    rw [hab.2, htext]

/-- C1: for every sequence of key presses from a fresh default-bound
keyboard, serializing the session and loading the snapshot into a fresh
keyboard succeeds and yields an engine whose text buffer equals the
original's, and whose outcome of one further undo equals the outcome the
original engine would produce. -/
theorem claim_C1_roundtrip (keys : List String) :
    ∃ kb2, VirtualKeyboard.init.load_state
        (KeyboardMemento.from_keyboard
          (runPresses VirtualKeyboard.init keys)).asSnapshot = .ok kb2 ∧
      kb2.text = (runPresses VirtualKeyboard.init keys).text ∧
      kb2.undo.2 = (runPresses VirtualKeyboard.init keys).undo.2 := by
  set kb := runPresses VirtualKeyboard.init keys with hkb
  have hInv : Inv kb := inv_runPresses inv_init keys
  obtain ⟨kb2, h1, h2, h3, h4, hpre, P1, P2, P3⟩ :=
    loadBindings_serialized kb.heap kb.key_bindings
      { VirtualKeyboard.init with
          text := kb.text
          key_bindings := ([] : List (String × Option Nat)) }
      hInv.keys_nodup hInv.bind_lt (fun p _ => rfl)
  refine ⟨{ kb2 with
      history := rebuildStack kb2.key_bindings (kb.history.map Prod.fst)
      undo_stack := rebuildStack kb2.key_bindings (kb.undo_stack.map Prod.fst) },
    ?_, ?_, ?_⟩
  · simp only [VirtualKeyboard.load_state, KeyboardMemento.asSnapshot,
      KeyboardMemento.from_keyboard, Option.getD_some]
    rw [h1]
  · exact h2
  · apply undo_outcome_eq
    · exact h2
    · show List.Forall₂ _ kb.history
        (rebuildStack kb2.key_bindings (kb.history.map Prod.fst))
      apply rebuildStack_forall₂
      intro e he
      obtain ⟨j, hj, _, hv⟩ := P3 e.1 e.2 (hInv.hist_bind e he)
      exact ⟨j, hj, hv⟩

end Lab6
